import Mathlib

/-!
Shallow embedding of `src/core/sensitive.py` (fastfish-lite sensitive-word
detection module) and proofs of the specification claims about it.

Python strings are modelled as Lean `String` (lists of characters), Python
`None` as `Option.none`, the filesystem (directory existence and the line
contents of lexicon files) as an explicit `FS` record, and the mutable
checker instance state (`_loaded`, `_matchers`) as an explicit state record
threaded through `checkS`.
-/

namespace Sensitive

/-- Python `str.isspace`-style whitespace test used by `str.strip()` and the
`\s` regex class (restricted to the ASCII whitespace characters; the inputs
of this module are never exercised on exotic Unicode spaces). -/
def pyIsSpace (c : Char) : Bool :=
  c = ' ' || c = '\t' || c = '\n' || c = '\r' || c = '\x0b' || c = '\x0c'

/-- Python `str.strip()` on a character list: drop whitespace from both ends. -/
def pyStripList (l : List Char) : List Char :=
  ((l.dropWhile pyIsSpace).reverse.dropWhile pyIsSpace).reverse

/-- Python `s.strip()`. -/
def pyStrip (s : String) : String :=
  ⟨pyStripList s.data⟩

/-- Python `s.startswith("#")`. -/
def startsWithHash (s : String) : Bool :=
  match s.data with
  | [] => false
  | c :: _ => c = '#'

/-- Scanner for `re.sub(r"<[^>]+>", "", ·)`.  `buf` is the pending text of
a possibly open tag: empty outside a tag, otherwise `'<'` followed by the
non-`'>'` characters read so far.  A pending `"<"` immediately followed by
`'>'` (`"<>"`) is not a match of `<[^>]+>` and is flushed verbatim; a
pending buffer of two or more characters followed by `'>'` is a tag match
and is deleted; a buffer left open at the end of the input is flushed. -/
def removeTagsAux : List Char → List Char → List Char
  | buf, [] => buf
  | buf, c :: rest =>
    if buf.isEmpty then
      if c = '<' then removeTagsAux [c] rest
      else c :: removeTagsAux [] rest
    else
      if c = '>' then
        if 2 ≤ buf.length then removeTagsAux [] rest
        else buf ++ '>' :: removeTagsAux [] rest
      else removeTagsAux (buf ++ [c]) rest

/-- Model of `re.sub(r"<[^>]+>", "", ·)`: each `<`, followed by at least one
non-`>` character and then a `>`, is deleted together with everything in
between; a `<` with no such closing `>` (or an immediate `<>`) is kept. -/
def removeTags (l : List Char) : List Char :=
  removeTagsAux [] l

/-- Scanner for `re.sub(r"\s+", " ", ·)`: `prevSpace` records whether the
previous character was whitespace (i.e. we are inside a run that has
already produced its single space). -/
def collapseWsAux : Bool → List Char → List Char
  | _, [] => []
  | prevSpace, c :: rest =>
    if pyIsSpace c then
      if prevSpace then collapseWsAux true rest
      else ' ' :: collapseWsAux true rest
    else c :: collapseWsAux false rest

/-- Model of `re.sub(r"\s+", " ", ·)`: every maximal run of whitespace becomes a
single space. -/
def collapseWs (l : List Char) : List Char :=
  collapseWsAux false l

/-- Function `_strip_html` from `src/core/sensitive.py`: empty / all-whitespace input
yields `""`; otherwise tags are removed, whitespace runs are collapsed to
single spaces and the ends are stripped. -/
def stripHtml (html : String) : String :=
  if html.isEmpty || (pyStrip html).isEmpty then ""
  else ⟨pyStripList (collapseWs (removeTags html.data))⟩

/-- A node of the DFA trie: terminal flag plus child map (Python's nested
`dict`, with the `"__end__"` marker modelled as the boolean flag). -/
inductive Trie where
  | node : Bool → List (Char × Trie) → Trie

/-- Terminal flag of a node (`node.get("__end__")`). -/
def Trie.isEnd : Trie → Bool
  | .node e _ => e

/-- Child list of a node. -/
def Trie.children : Trie → List (Char × Trie)
  | .node _ cs => cs

/-- Lookup in the child map (`c in node` / `node[c]`). -/
def childGet (cs : List (Char × Trie)) (c : Char) : Option Trie :=
  match cs with
  | [] => none
  | (c', t) :: rest => if c' = c then some t else childGet rest c

/-- Update / append in the child map (`node[c] = ...`; a fresh key goes to
the end, as in a Python dict). -/
def childSet (cs : List (Char × Trie)) (c : Char) (t : Trie) : List (Char × Trie) :=
  match cs with
  | [] => [(c, t)]
  | (c', t') :: rest => if c' = c then (c, t) :: rest else (c', t') :: childSet rest c t

/-- Child lookup on a node. -/
def Trie.child (t : Trie) (c : Char) : Option Trie :=
  childGet t.children c

/-- Insert one word into the trie (the inner loop of `DFAMatcher.__init__`). -/
def Trie.insert : Trie → List Char → Trie
  | t, [] => .node true t.children
  | t, c :: rest =>
    let sub := match t.child c with
      | some s => s
      | none => .node false []
    .node t.isEnd (childSet t.children c (sub.insert rest))

/-- Does the trie contain this exact word (a path ending at a terminal)? -/
def Trie.containsWord : Trie → List Char → Bool
  | t, [] => t.isEnd
  | t, c :: rest =>
    match t.child c with
    | some t' => t'.containsWord rest
    | none => false

/-- A `DFAMatcher`: just the root of the trie. -/
structure DFAMatcher where
  root : Trie

/-- Constructor `DFAMatcher.__init__(words)`: each word is stripped; empty results are
skipped (never inserted); the rest are inserted into the trie. -/
def DFAMatcher.ofWords (words : List String) : DFAMatcher :=
  ⟨words.foldl (fun t w =>
      let w' := pyStrip w
      if w'.isEmpty then t else t.insert w'.data)
    (.node false [])⟩

/-- The inner `while` of `DFAMatcher.search`: starting at the current cursor,
walk the trie while transitions exist and return the distance to the last
terminal node reached (`last_end - i`), if any. -/
def walkLongest (t : Trie) : List Char → Option Nat
  | [] => none
  | c :: rest =>
    match t.child c with
    | none => none
    | some t' =>
      match walkLongest t' rest with
      | some l => some (l + 1)
      | none => if t'.isEnd then some 1 else none

/-- The outer loop of `DFAMatcher.search`: `i` is the absolute position of
the head of `cs` in the original text.  On a longest match of length `L`
the triple `(i, i + L, text[i:i+L])` is emitted and the cursor jumps past
the matched span; otherwise it advances by one.  The cursor strictly
advances on every iteration, so a fuel of `cs.length` makes the fuel-out
branch unreachable. -/
def searchAux (root : Trie) : Nat → Nat → List Char → List (Nat × Nat × String)
  | 0, _, _ => []
  | _ + 1, _, [] => []
  | fuel + 1, i, c :: rest =>
    match walkLongest root (c :: rest) with
    | some l => (i, i + l, ⟨(c :: rest).take l⟩) :: searchAux root fuel (i + l) (rest.drop (l - 1))
    | none => searchAux root fuel (i + 1) rest

/-- Method `DFAMatcher.search(text)`. -/
def DFAMatcher.search (m : DFAMatcher) (text : String) : List (Nat × Nat × String) :=
  searchAux m.root text.data.length 0 text.data

/-- Table `CATEGORY_FILES` from `src/core/sensitive.py` (insertion order of the
Python dict preserved as list order). -/
def CATEGORY_FILES : List (String × List String) :=
  [("ad", ["广告类型.txt"]),
   ("porn", ["色情类型.txt", "色情词库.txt"]),
   ("political", ["政治类型.txt", "反动词库.txt"]),
   ("abuse", ["补充词库.txt", "其他词库.txt"])]

/-- Table `CATEGORY_NAMES` from `src/core/sensitive.py`. -/
def CATEGORY_NAMES : List (String × String) :=
  [("ad", "广告垃圾"),
   ("porn", "色情垃圾"),
   ("political", "违禁涉政"),
   ("abuse", "谩骂灌水")]

/-- First-match association lookup (Python `dict` lookup; keys are unique). -/
def assocFind {β : Type} (l : List (String × β)) (k : String) : Option β :=
  match l with
  | [] => none
  | (k', v) :: rest => if k' = k then some v else assocFind rest k

/-- Association update, appending a fresh key at the end (Python
`d[k] = v` semantics on an insertion-ordered dict). -/
def assocSet {β : Type} (l : List (String × β)) (k : String) (v : β) : List (String × β) :=
  match l with
  | [] => [(k, v)]
  | (k', v') :: rest => if k' = k then (k, v) :: rest else (k', v') :: assocSet rest k v

/-- Lookup `CATEGORY_NAMES.get(cat, cat)`. -/
def catName (cat : String) : String :=
  match assocFind CATEGORY_NAMES cat with
  | some n => n
  | none => cat

/-- The filesystem as this module observes it: whether the configured
vocabulary directory exists (and is a directory), and for each file name
the lines of that file (`none` models a missing or unreadable file, which
`_load_words_from_file` turns into zero words). -/
structure FS where
  dirExists : Bool
  fileLines : String → Option (List String)

/-- Function `_load_words_from_file`: strip each line, keep the non-empty ones not
starting with `#`; a missing/unreadable file contributes no words. -/
def loadWordsFromLines : Option (List String) → List String
  | none => []
  | some lines => (lines.map pyStrip).filter fun w => !w.isEmpty && !(startsWithHash w)

/-- The words collected for one category (`all_words` in `_ensure_loaded`):
concatenation of the per-file word lists. -/
def catWords (fs : FS) (files : List String) : List String :=
  files.flatMap fun f => loadWordsFromLines (fs.fileLines f)

/-- The `for cat, files in CATEGORY_FILES.items()` loop of
`_ensure_loaded`: build a `DFAMatcher` for every category whose collected
word list is non-empty, assigning into the matcher dict. -/
def buildMatchers (fs : FS) (init0 : List (String × DFAMatcher)) : List (String × DFAMatcher) :=
  CATEGORY_FILES.foldl (fun acc p =>
    let ws := catWords fs p.2
    if ws.isEmpty then acc else assocSet acc p.1 (DFAMatcher.ofWords ws)) init0

/-- One entry of the `matched` list built by `SensitiveChecker.check`
(a Python dict with fixed keys `category`, `category_name`, `word`, `in`;
the `in` key is named `field` here). -/
structure MatchEntry where
  category : String
  category_name : String
  word : String
  field : String
deriving DecidableEq, Repr

/-- The result dict of `SensitiveChecker.check` (fixed keys). -/
structure CheckResult where
  passed : Bool
  message : String
  failed_categories : List String
  matched : List MatchEntry
  performed : Bool
  sources : String
  skipped_reason : String
deriving DecidableEq, Repr

/-- The mutable state of a `SensitiveChecker` instance: `_loaded` and
`_matchers`. -/
structure CheckerMState where
  loaded : Bool
  matchers : List (String × DFAMatcher)

/-- The state set up by `SensitiveChecker.__init__`. -/
def initState : CheckerMState :=
  ⟨false, []⟩

/-- Method `SensitiveChecker._ensure_loaded`: returns the boolean result together
with the updated instance state. -/
def ensureLoadedS (fs : FS) (s : CheckerMState) : Bool × CheckerMState :=
  if s.loaded then (!s.matchers.isEmpty, s)
  else if !fs.dirExists then (false, ⟨true, s.matchers⟩)
  else
    let ms := buildMatchers fs s.matchers
    (!ms.isEmpty, ⟨true, ms⟩)

/-- The scanning loop of `check`: for each category (in matcher-dict
order) scan the title, then the normalized content, tagging matches. -/
def scanAll (ms : List (String × DFAMatcher)) (t ct : String) : List MatchEntry :=
  ms.flatMap fun p =>
    ((p.2.search t).map fun x => MatchEntry.mk p.1 (catName p.1) x.2.2 "title") ++
    ((p.2.search ct).map fun x => MatchEntry.mk p.1 (catName p.1) x.2.2 "content")

/-- List `failed_categories` as accumulated by `check`: first-seen de-duplicated
category ids of the matches, in match order. -/
def dedupCategories (l : List MatchEntry) : List String :=
  l.foldl (fun acc m => if acc.contains m.category then acc else acc ++ [m.category]) []

/-- List `words_preview`: the words of the first five matches, plus `"..."`
exactly when there are more than five matches in total. -/
def previewWords (matched : List MatchEntry) : List String :=
  (matched.take 5).map MatchEntry.word ++ (if 5 < matched.length then ["..."] else [])

/-- The failure `msg` f-string of `check`. -/
def buildMessage (cats : List String) (matched : List MatchEntry) : String :=
  "内容含敏感词，涉及：" ++ String.intercalate ", " (cats.map catName) ++
    "，示例：" ++ String.intercalate ", " (previewWords matched)

/-- Method `SensitiveChecker.check(title, content_html)`, with the instance state
passed and returned explicitly. -/
def checkS (fs : FS) (s : CheckerMState) (title content_html : String) :
    CheckResult × CheckerMState :=
  let content_text := stripHtml content_html
  let t := pyStrip title
  let lr := ensureLoadedS fs s
  let res :=
    if lr.1 then
      let matched := scanAll lr.2.matchers t content_text
      if matched.isEmpty then
        { passed := true, message := "", failed_categories := [], matched := [],
          performed := true, sources := "local", skipped_reason := "" }
      else
        { passed := false, message := buildMessage (dedupCategories matched) matched,
          failed_categories := dedupCategories matched, matched := matched,
          performed := true, sources := "local", skipped_reason := "" }
    else
      { passed := true, message := "", failed_categories := [], matched := [],
        performed := false, sources := "skipped",
        skipped_reason := "本地词库不存在，请配置 data/sensitive_lexicon/Vocabulary/" }
  (res, lr.2)

/-- Call `SensitiveChecker().check(title, content)` on a freshly constructed
instance (the result value only). -/
def SensitiveChecker.check (fs : FS) (title content_html : String) : CheckResult :=
  (checkS fs initState title content_html).1

/-- Resolution of `vocabulary_dir` in `SensitiveChecker.__init__`: an explicit
argument wins; otherwise the `MEDIA_AGENT_SENSITIVE_LEXICON_DIR` environment
variable; otherwise the packaged default path. -/
def resolveDir (env arg : Option String) : String :=
  match arg with
  | some d => d
  | none =>
    match env with
    | some e => e
    | none => "data/sensitive_lexicon/Vocabulary"

/-- A `SensitiveChecker` instance as far as its identity is observable:
the resolved vocabulary directory it will consult. -/
structure SCInst where
  vocabulary_dir : String
deriving DecidableEq, Repr

/-- Constructor `SensitiveChecker.__init__(vocabulary_dir)`. -/
def SensitiveChecker.init (env arg : Option String) : SCInst :=
  ⟨resolveDir env arg⟩

/-- Function `get_checker(vocabulary_dir)`: the module-global `_checker` is the
second component; a checker is constructed only when it is `none`. -/
def getChecker (env arg : Option String) (g : Option SCInst) : SCInst × Option SCInst :=
  match g with
  | none =>
    let c := SensitiveChecker.init env arg
    (c, some c)
  | some c => (c, some c)

/-- The `status` dict built by `check_content_compliance_with_status`:
three base keys, plus `matched` / `failed_categories` only on failure
(`none` models an absent key). -/
structure ComplianceStatus where
  performed : Bool
  sources : String
  skipped_reason : String
  matched : Option (List MatchEntry)
  failed_categories : Option (List String)
deriving DecidableEq, Repr

/-- Expression `row.get(key) or ""`: a missing key, a `None` value and an empty string
all coalesce to `""`. -/
def rowGet (row : List (String × Option String)) (k : String) : String :=
  match assocFind row k with
  | some (some v) => v
  | _ => ""

/-- Function `check_content_compliance_with_status(row)` (the checker consulted by
the global singleton is modelled by the filesystem view `fs`). -/
def check_content_compliance_with_status (fs : FS) (row : List (String × Option String)) :
    Bool × String × ComplianceStatus :=
  let title := rowGet row "rewritten_title"
  let content := rowGet row "rewritten_content"
  let result := SensitiveChecker.check fs title content
  if result.passed then
    (true, "", ⟨result.performed, result.sources, result.skipped_reason, none, none⟩)
  else
    (false, result.message,
      ⟨result.performed, result.sources, result.skipped_reason,
        some result.matched, some result.failed_categories⟩)

/-! ### Lemmas about stripping -/

theorem dropWhile_dropWhile (p : Char → Bool) (l : List Char) :
    (l.dropWhile p).dropWhile p = l.dropWhile p := by
  induction l with
  | nil => rfl
  | cons a l ih =>
    by_cases h : p a
    · simp [List.dropWhile_cons, h, ih]
    · simp [List.dropWhile_cons, h]

theorem dropWhile_head_false {p : Char → Bool} {l : List Char} {a : Char} {t : List Char}
    (h : l.dropWhile p = a :: t) : p a = false := by
  have := List.head?_dropWhile_not p l
  rw [h] at this
  simpa using this

theorem dropWhile_of_head_false {p : Char → Bool} {a : Char} {t : List Char}
    (h : p a = false) : (a :: t).dropWhile p = a :: t := by
  simp [List.dropWhile_cons, h]

theorem getLast?_dropWhile_ne_nil {p : Char → Bool} {l : List Char}
    (h : l.dropWhile p ≠ []) : (l.dropWhile p).getLast? = l.getLast? := by
  obtain ⟨pre, hpre⟩ := List.dropWhile_suffix (l := l) p
  conv_rhs => rw [← hpre]
  rw [List.getLast?_append]
  cases hg : (l.dropWhile p).getLast? with
  | none => exact absurd (List.getLast?_eq_none_iff.mp hg) h
  | some y => rfl

theorem pyStripList_idem (l : List Char) : pyStripList (pyStripList l) = pyStripList l := by
  unfold pyStripList
  set A := l.dropWhile pyIsSpace with hA
  set B := A.reverse.dropWhile pyIsSpace with hB
  have h1 : B.reverse.dropWhile pyIsSpace = B.reverse := by
    cases hBr : B.reverse with
    | nil => rfl
    | cons x xs =>
      apply dropWhile_of_head_false
      have hBne : B ≠ [] := by
        intro h0
        rw [h0] at hBr
        cases hBr
      have hx : B.getLast? = some x := by
        rw [← List.head?_reverse, hBr]
        rfl
      have hAr : B.getLast? = A.reverse.getLast? := by
        rw [hB]
        exact getLast?_dropWhile_ne_nil (by rw [← hB]; exact hBne)
      rw [List.getLast?_reverse] at hAr
      have hxh : A.head? = some x := by rw [← hAr, hx]
      cases hAc : A with
      | nil => rw [hAc] at hxh; cases hxh
      | cons a t =>
        rw [hAc] at hxh
        have hax : a = x := by simpa using hxh
        subst hax
        rw [hA] at hAc
        exact dropWhile_head_false hAc
  rw [h1, List.reverse_reverse, hB, dropWhile_dropWhile]

theorem pyStrip_idem (s : String) : pyStrip (pyStrip s) = pyStrip s := by
  unfold pyStrip
  exact congrArg String.mk (pyStripList_idem s.data)

/-! ### Lemmas about the lexicon loader -/

theorem mem_loadWordsFromLines {ol : Option (List String)} {W : String}
    (h : W ∈ loadWordsFromLines ol) : pyStrip W = W ∧ W.isEmpty = false := by
  cases ol with
  | none => cases h
  | some lines =>
    unfold loadWordsFromLines at h
    rw [List.mem_filter] at h
    obtain ⟨hmem, hpred⟩ := h
    rw [List.mem_map] at hmem
    obtain ⟨line, _, hline⟩ := hmem
    constructor
    · rw [← hline, pyStrip_idem]
    · have := (Bool.and_eq_true _ _).mp hpred
      simpa using this.1

theorem mem_catWords {fs : FS} {files : List String} {W : String}
    (h : W ∈ catWords fs files) : pyStrip W = W ∧ W.isEmpty = false := by
  unfold catWords at h
  rw [List.mem_flatMap] at h
  obtain ⟨f, _, hin⟩ := h
  exact mem_loadWordsFromLines hin

/-! ### Lemmas about the trie -/

theorem childGet_childSet_self (cs : List (Char × Trie)) (c : Char) (t : Trie) :
    childGet (childSet cs c t) c = some t := by
  induction cs with
  | nil => simp [childSet, childGet]
  | cons p rest ih =>
    obtain ⟨c', t'⟩ := p
    by_cases h : c' = c
    · simp [childSet, childGet, h]
    · simp [childSet, childGet, h, ih]

theorem childGet_childSet_ne (cs : List (Char × Trie)) {c c' : Char} (t : Trie)
    (h : c' ≠ c) : childGet (childSet cs c t) c' = childGet cs c' := by
  have hcc : c ≠ c' := Ne.symm h
  induction cs with
  | nil => simp [childSet, childGet, hcc]
  | cons p rest ih =>
    obtain ⟨c'', t''⟩ := p
    by_cases h2 : c'' = c
    · subst h2
      simp [childSet, childGet, hcc]
    · simp [childSet, childGet, h2, ih]

theorem containsWord_insert_self : ∀ (w : List Char) (t : Trie),
    (t.insert w).containsWord w = true := by
  intro w
  induction w with
  | nil =>
    intro t
    simp [Trie.insert, Trie.containsWord, Trie.isEnd]
  | cons c rest ih =>
    intro t
    simp only [Trie.insert, Trie.containsWord, Trie.child, Trie.children]
    rw [childGet_childSet_self]
    exact ih _

theorem containsWord_insert_mono : ∀ (v w : List Char) (t : Trie),
    t.containsWord v = true → (t.insert w).containsWord v = true := by
  intro v
  induction v with
  | nil =>
    intro w t h
    cases w with
    | nil => simp [Trie.insert, Trie.containsWord, Trie.isEnd]
    | cons c rest =>
      simp only [Trie.containsWord, Trie.isEnd] at h
      simpa [Trie.insert, Trie.containsWord, Trie.isEnd] using h
  | cons a v' ih =>
    intro w t h
    obtain ⟨e, cs⟩ := t
    simp only [Trie.containsWord, Trie.child, Trie.children] at h
    cases hc : childGet cs a with
    | none => rw [hc] at h; simp at h
    | some ta =>
      rw [hc] at h
      simp only at h
      cases w with
      | nil =>
        simp only [Trie.insert, Trie.containsWord, Trie.child, Trie.children]
        rw [hc]
        exact h
      | cons c rest =>
        simp only [Trie.insert, Trie.containsWord, Trie.child, Trie.children]
        by_cases hac : a = c
        · subst hac
          rw [childGet_childSet_self]
          simp only [hc]
          exact ih rest ta h
        · rw [childGet_childSet_ne _ _ hac, hc]
          exact h

/-- Every word inserted while folding the word list stays absent or
present: folding preserves containment. -/
theorem containsWord_ofWords_foldl_mono (v : List Char) :
    ∀ (ws : List String) (t : Trie), t.containsWord v = true →
      (ws.foldl (fun t w =>
          let w' := pyStrip w
          if w'.isEmpty then t else t.insert w'.data) t).containsWord v = true := by
  intro ws
  induction ws with
  | nil => intro t h; exact h
  | cons w ws' ih =>
    intro t h
    simp only [List.foldl_cons]
    apply ih
    by_cases hw : (pyStrip w).isEmpty
    · simpa [hw] using h
    · simpa [hw] using containsWord_insert_mono v (pyStrip w).data t h

/-- A stripped, non-empty word of the list is contained in the built trie. -/
theorem containsWord_ofWords {ws : List String} {W : String}
    (hmem : W ∈ ws) (hstrip : pyStrip W = W) (hne : W.isEmpty = false) :
    (DFAMatcher.ofWords ws).root.containsWord W.data = true := by
  have main : ∀ (l : List String) (t : Trie), W ∈ l →
      (l.foldl (fun t w =>
          let w' := pyStrip w
          if w'.isEmpty then t else t.insert w'.data) t).containsWord W.data = true := by
    intro l
    induction l with
    | nil => intro t h; cases h
    | cons w l' ih =>
      intro t h
      rcases List.mem_cons.mp h with h1 | h2
      · subst h1
        simp only [List.foldl_cons]
        apply containsWord_ofWords_foldl_mono
        simp only [hstrip, hne]
        simpa using containsWord_insert_self W.data t
      · simp only [List.foldl_cons]
        exact ih _ h2
  exact main ws _ hmem

/-! ### Lemmas about the scan -/

theorem walkLongest_pos : ∀ {cs : List Char} {t : Trie} {l : Nat},
    walkLongest t cs = some l → 1 ≤ l := by
  intro cs
  induction cs with
  | nil => intro t l h; cases h
  | cons c rest ih =>
    intro t l h
    simp only [walkLongest] at h
    cases hc : t.child c with
    | none => rw [hc] at h; cases h
    | some t' =>
      rw [hc] at h
      simp only at h
      cases hw : walkLongest t' rest with
      | some l' =>
        rw [hw] at h
        simp only [Option.some.injEq] at h
        omega
      | none =>
        rw [hw] at h
        by_cases he : t'.isEnd
        · simp [he] at h; omega
        · simp [he] at h

theorem walkLongest_le : ∀ {cs : List Char} {t : Trie} {l : Nat},
    walkLongest t cs = some l → l ≤ cs.length := by
  intro cs
  induction cs with
  | nil => intro t l h; cases h
  | cons c rest ih =>
    intro t l h
    simp only [walkLongest] at h
    cases hc : t.child c with
    | none => rw [hc] at h; cases h
    | some t' =>
      rw [hc] at h
      simp only at h
      cases hw : walkLongest t' rest with
      | some l' =>
        rw [hw] at h
        simp only [Option.some.injEq] at h
        have := ih hw
        simp only [List.length_cons]
        omega
      | none =>
        rw [hw] at h
        by_cases he : t'.isEnd
        · simp [he] at h
          simp only [List.length_cons]
          omega
        · simp [he] at h

/-- Scanning a text that is exactly a trie word finds the full-length
match: the walk reaches a terminal at the very end of the text. -/
theorem walkLongest_of_containsWord : ∀ {cs : List Char} {t : Trie},
    t.containsWord cs = true → cs ≠ [] → walkLongest t cs = some cs.length := by
  intro cs
  induction cs with
  | nil => intro t _ hne; exact absurd rfl hne
  | cons c rest ih =>
    intro t h _
    simp only [Trie.containsWord] at h
    cases hc : t.child c with
    | none => rw [hc] at h; simp at h
    | some t' =>
      rw [hc] at h
      simp only at h
      simp only [walkLongest, hc]
      cases hr : rest with
      | nil =>
        subst hr
        simp only [Trie.containsWord] at h
        simp [walkLongest, h]
      | cons r rs =>
        rw [← hr]
        have hne' : rest ≠ [] := by rw [hr]; exact List.cons_ne_nil _ _
        rw [ih h hne']
        simp

/-- The full-text match produced by `searchAux` on a text that is itself a
contained word. -/
theorem search_contains_full {root : Trie} {cs : List Char}
    (h : root.containsWord cs = true) (hne : cs ≠ []) :
    (0, cs.length, (⟨cs⟩ : String)) ∈ searchAux root cs.length 0 cs := by
  cases cs with
  | nil => exact absurd rfl hne
  | cons c rest =>
    simp only [List.length_cons, searchAux]
    rw [walkLongest_of_containsWord h hne]
    simp only [List.length_cons, Nat.zero_add, List.take_succ_cons, List.take_length]
    exact List.mem_cons_self _ _

/-- Well-formedness of every triple emitted by `searchAux`: offsets are
within the scanned suffix, the end strictly exceeds the start, and the
reported word is the corresponding slice of the text. -/
theorem searchAux_spec (root : Trie) : ∀ (fuel : Nat) (cs : List Char) (i s e : Nat) (w : String),
    cs.length ≤ fuel → (s, e, w) ∈ searchAux root fuel i cs →
    i ≤ s ∧ s < e ∧ e ≤ i + cs.length ∧ w.data = (cs.drop (s - i)).take (e - s) := by
  intro fuel
  induction fuel with
  | zero => intro cs i s e w _ h; cases h
  | succ fuel ih =>
    intro cs i s e w hlen h
    cases cs with
    | nil => cases h
    | cons c rest =>
      simp only [searchAux] at h
      cases hw : walkLongest root (c :: rest) with
      | some l =>
        rw [hw] at h
        have hl1 : 1 ≤ l := walkLongest_pos hw
        have hl2 : l ≤ rest.length + 1 := by
          have := walkLongest_le hw
          simpa using this
        rcases List.mem_cons.mp h with h1 | h2
        · have hs : s = i := congrArg Prod.fst h1
          have he : e = i + l := congrArg (fun x => x.2.1) h1
          have hww : w = ⟨(c :: rest).take l⟩ := congrArg (fun x => x.2.2) h1
          subst hs
          subst he
          subst hww
          refine ⟨Nat.le_refl _, by omega, by simp only [List.length_cons]; omega, ?_⟩
          simp [Nat.sub_self, Nat.add_sub_cancel_left]
        · have hlen' : (rest.drop (l - 1)).length ≤ fuel := by
            simp only [List.length_drop]
            simp only [List.length_cons] at hlen
            omega
          obtain ⟨ha, hb, hc2, hd⟩ := ih (rest.drop (l - 1)) (i + l) s e w hlen' h2
          refine ⟨by omega, hb, ?_, ?_⟩
          · simp only [List.length_drop] at hc2
            simp only [List.length_cons]
            omega
          · rw [List.drop_drop] at hd
            have hsi : s - i = (s - i - 1) + 1 := by omega
            have : l - 1 + (s - (i + l)) = s - i - 1 := by omega
            rw [this] at hd
            rw [hsi, List.drop_succ_cons]
            exact hd
      | none =>
        rw [hw] at h
        have hlen' : rest.length ≤ fuel := by
          simp only [List.length_cons] at hlen
          omega
        obtain ⟨ha, hb, hc2, hd⟩ := ih rest (i + 1) s e w hlen' h
        refine ⟨by omega, hb, ?_, ?_⟩
        · simp only [List.length_cons]
          omega
        · have hsi : s - i = (s - i - 1) + 1 := by omega
          have : s - (i + 1) = s - i - 1 := by omega
          rw [this] at hd
          rw [hsi, List.drop_succ_cons]
          exact hd

/-! ### Lemmas about matcher-dict construction -/

theorem mem_assocSet_self {β : Type} (l : List (String × β)) (k : String) (v : β) :
    (k, v) ∈ assocSet l k v := by
  induction l with
  | nil => simp [assocSet]
  | cons p rest ih =>
    obtain ⟨k', v'⟩ := p
    by_cases h : k' = k
    · simp [assocSet, h]
    · simp only [assocSet, if_neg h]
      exact List.mem_cons_of_mem _ ih

theorem mem_assocSet_of_ne {β : Type} {l : List (String × β)} {k' : String} {v' : β}
    (h : (k', v') ∈ l) (k : String) (v : β) (hne : k' ≠ k) : (k', v') ∈ assocSet l k v := by
  induction l with
  | nil => cases h
  | cons p rest ih =>
    obtain ⟨k'', v''⟩ := p
    rcases List.mem_cons.mp h with h1 | h2
    · obtain ⟨e1, e2⟩ := Prod.mk.injEq .. ▸ h1
      subst e1
      subst e2
      simp only [assocSet, if_neg hne]
      exact List.mem_cons_self _ _
    · by_cases hk : k'' = k
      · simp only [assocSet, if_pos hk]
        exact List.mem_cons_of_mem _ h2
      · simp only [assocSet, if_neg hk]
        exact List.mem_cons_of_mem _ (ih h2)

theorem mem_buildMatchers_foldl_preserve (fs : FS) (cat : String) (m : DFAMatcher) :
    ∀ (l : List (String × List String)) (acc : List (String × DFAMatcher)),
      (cat, m) ∈ acc → (∀ q ∈ l, q.1 ≠ cat) →
      (cat, m) ∈ l.foldl (fun acc p =>
        let ws := catWords fs p.2
        if ws.isEmpty then acc else assocSet acc p.1 (DFAMatcher.ofWords ws)) acc := by
  intro l
  induction l with
  | nil => intro acc h _; exact h
  | cons q l' ih =>
    intro acc h hq
    simp only [List.foldl_cons]
    apply ih
    · by_cases hw : (catWords fs q.2).isEmpty
      · simpa [hw] using h
      · simp only [hw, if_neg]
        simp only [Bool.false_eq_true, if_false]
        exact mem_assocSet_of_ne h q.1 _ (Ne.symm (hq q (List.mem_cons_self _ _)))
    · intro r hr
      exact hq r (List.mem_cons_of_mem _ hr)

theorem mem_buildMatchers {fs : FS} {cat : String} {files : List String}
    (hmem : (cat, files) ∈ CATEGORY_FILES)
    (hne : (catWords fs files).isEmpty = false) :
    (cat, DFAMatcher.ofWords (catWords fs files)) ∈ buildMatchers fs [] := by
  have main : ∀ (l : List (String × List String)) (acc : List (String × DFAMatcher)),
      (cat, files) ∈ l → (l.map Prod.fst).Nodup →
      (cat, DFAMatcher.ofWords (catWords fs files)) ∈ l.foldl (fun acc p =>
        let ws := catWords fs p.2
        if ws.isEmpty then acc else assocSet acc p.1 (DFAMatcher.ofWords ws)) acc := by
    intro l
    induction l with
    | nil => intro acc h _; cases h
    | cons q l' ih =>
      intro acc h hnd
      have hnd' : (q.1 :: l'.map Prod.fst).Nodup := by
        simpa using hnd
      have hsplit := List.nodup_cons.mp hnd'
      rcases List.mem_cons.mp h with h1 | h2
      · have hq : q = (cat, files) := h1.symm
        subst hq
        simp only [List.foldl_cons, hne]
        simp only [Bool.false_eq_true, if_false]
        apply mem_buildMatchers_foldl_preserve
        · exact mem_assocSet_self _ _ _
        · intro r hr hrc
          exact hsplit.1 (List.mem_map.mpr ⟨r, hr, hrc⟩)
      · simp only [List.foldl_cons]
        exact ih _ h2 (by simpa using hsplit.2)
  exact main CATEGORY_FILES [] hmem (by decide)

/-! ### Lemmas about the checker state -/

theorem ensureLoadedS_sets_loaded (fs : FS) (s : CheckerMState) :
    ((ensureLoadedS fs s).2).loaded = true := by
  by_cases h : s.loaded <;> by_cases hd : fs.dirExists <;>
    simp [ensureLoadedS, h, hd]

theorem ensureLoadedS_of_loaded (fs : FS) (s : CheckerMState) (h : s.loaded = true) :
    ensureLoadedS fs s = (!s.matchers.isEmpty, s) := by
  simp [ensureLoadedS, h]

theorem checkS_state (fs : FS) (s : CheckerMState) (t c : String) :
    (checkS fs s t c).2 = (ensureLoadedS fs s).2 :=
  rfl

/-! ### The claims -/

/-- C1 — Longest-match scanning: for a matcher built from the word list
`{"ab", "abc"}`, `DFAMatcher.search("abcd")` returns exactly the single
match `(0, 3, "abc")`; it never returns `(0, 2, "ab")` nor any match
starting at index 2. -/
theorem dfa_longest_match :
    (DFAMatcher.ofWords ["ab", "abc"]).search "abcd" = [(0, 3, "abc")] ∧
    (0, 2, ("ab" : String)) ∉ (DFAMatcher.ofWords ["ab", "abc"]).search "abcd" ∧
    ∀ x ∈ (DFAMatcher.ofWords ["ab", "abc"]).search "abcd", x.1 ≠ 2 := by
  decide

/-- C2 — Non-overlap/advance: for a matcher built from `{"aa"}`,
`DFAMatcher.search("aaaa")` returns exactly the two matches `(0, 2, "aa")`
and `(2, 4, "aa")`, in that order, and no third match. -/
theorem dfa_nonoverlap_advance :
    (DFAMatcher.ofWords ["aa"]).search "aaaa" = [(0, 2, "aa"), (2, 4, "aa")] := by
  decide

/-- C3 — Fail-open on missing lexicon: if the vocabulary directory does not
exist (or is not a directory), `check` returns, for every title and
content, `passed = true`, `performed = false`, `sources = "skipped"`,
empty matches and failed categories, an empty message, and a non-empty
`skipped_reason` (the embedding is a total function, so no exception can
be raised). -/
theorem check_fails_open_on_missing_lexicon (fs : FS) (title content : String)
    (h : fs.dirExists = false) :
    SensitiveChecker.check fs title content =
      { passed := true, message := "", failed_categories := [], matched := [],
        performed := false, sources := "skipped",
        skipped_reason := "本地词库不存在，请配置 data/sensitive_lexicon/Vocabulary/" } ∧
    ("本地词库不存在，请配置 data/sensitive_lexicon/Vocabulary/" : String) ≠ "" := by
  constructor
  · unfold SensitiveChecker.check checkS ensureLoadedS initState
    simp [h]
  · decide

theorem check_fails_open_on_missing_lexicon_witness :
    (FS.mk false (fun _ => none)).dirExists = false ∧
    (SensitiveChecker.check ⟨false, fun _ => none⟩ "anything" "anything" =
      { passed := true, message := "", failed_categories := [], matched := [],
        performed := false, sources := "skipped",
        skipped_reason := "本地词库不存在，请配置 data/sensitive_lexicon/Vocabulary/" } ∧
    ("本地词库不存在，请配置 data/sensitive_lexicon/Vocabulary/" : String) ≠ "") :=
  ⟨rfl, check_fails_open_on_missing_lexicon ⟨false, fun _ => none⟩ "anything" "anything" rfl⟩

/-- C4 (counterexample) — the claim says normalizing
`"<p>x</p><script>evil</script>"` yields `"x evil"`; the code deletes tag
markers without inserting separators, so the normalized text is `"xevil"`,
not `"x evil"`. -/
theorem strip_html_no_space_counterexample :
    stripHtml "<p>x</p><script>evil</script>" ≠ "x evil" := by
  decide

/-- C4 (amended) — HTML normalization preserves enclosed text:
`"<p>x</p><script>evil</script>"` normalizes to `"xevil"` (tags removed,
enclosed text concatenated), and for a checker whose lexicon contains
`"evil"`, `check("", "<p>x</p><script>evil</script>")` reports a match
with word `"evil"` in field `"content"`. -/
theorem strip_html_enclosed_text_matches :
    stripHtml "<p>x</p><script>evil</script>" = "xevil" ∧
    (SensitiveChecker.check ⟨true, fun f => if f = "广告类型.txt" then some ["evil"] else none⟩
        "" "<p>x</p><script>evil</script>").passed = false ∧
    (MatchEntry.mk "ad" "广告垃圾" "evil" "content") ∈
      (SensitiveChecker.check ⟨true, fun f => if f = "广告类型.txt" then some ["evil"] else none⟩
        "" "<p>x</p><script>evil</script>").matched := by
  refine ⟨by decide, by decide, by decide⟩

/-- C8 — Determinism: once a checker instance has reached its terminal
state (after any first call), a further `check` call leaves the state
unchanged, and repeating a call with identical arguments returns an
identical result structure. -/
theorem check_deterministic_after_terminal_state (fs : FS) (t0 c0 t c : String) :
    (checkS fs (checkS fs initState t0 c0).2 t c).2 = (checkS fs initState t0 c0).2 ∧
    (checkS fs ((checkS fs (checkS fs initState t0 c0).2 t c).2) t c).1 =
      (checkS fs (checkS fs initState t0 c0).2 t c).1 := by
  have h1 : ((checkS fs initState t0 c0).2).loaded = true := by
    rw [checkS_state]
    exact ensureLoadedS_sets_loaded fs initState
  have h2 : (checkS fs (checkS fs initState t0 c0).2 t c).2 = (checkS fs initState t0 c0).2 := by
    rw [checkS_state, ensureLoadedS_of_loaded _ _ h1]
  exact ⟨h2, by rw [h2]⟩

/-- C9 — Singleton argument shadowing: the first `get_checker` call
constructs the checker from its own arguments and stores it in the global;
every later call returns that same instance and ignores its
`vocabulary_dir` argument (and the environment) entirely. -/
theorem get_checker_singleton_ignores_later_args (env1 arg1 env2 arg2 : Option String) :
    getChecker env1 arg1 none =
      (SensitiveChecker.init env1 arg1, some (SensitiveChecker.init env1 arg1)) ∧
    getChecker env2 arg2 (getChecker env1 arg1 none).2 =
      (SensitiveChecker.init env1 arg1, some (SensitiveChecker.init env1 arg1)) :=
  ⟨rfl, rfl⟩

/-- C10 — None-coalescing at the row interface: a missing key or a `None`
value for `rewritten_title` / `rewritten_content` is treated as the empty
string (the embedding is total, so nothing raises); the function returns
`(True, "", status)` exactly when the underlying check passed; and the
status always carries the `performed`, `sources` and `skipped_reason`
fields of the underlying result. -/
theorem compliance_row_interface (fs : FS) (row : List (String × Option String)) :
    (((check_content_compliance_with_status fs row).1 = true ∧
        (check_content_compliance_with_status fs row).2.1 = "") ↔
      (SensitiveChecker.check fs (rowGet row "rewritten_title")
          (rowGet row "rewritten_content")).passed = true) ∧
    (check_content_compliance_with_status fs row).2.2.performed =
      (SensitiveChecker.check fs (rowGet row "rewritten_title")
          (rowGet row "rewritten_content")).performed ∧
    (check_content_compliance_with_status fs row).2.2.sources =
      (SensitiveChecker.check fs (rowGet row "rewritten_title")
          (rowGet row "rewritten_content")).sources ∧
    (check_content_compliance_with_status fs row).2.2.skipped_reason =
      (SensitiveChecker.check fs (rowGet row "rewritten_title")
          (rowGet row "rewritten_content")).skipped_reason ∧
    (∀ k : String, rowGet [] k = "" ∧ rowGet ((k, none) :: row) k = "") := by
  refine ⟨?_, ?_, ?_, ?_, ?_⟩
  · cases hp : (SensitiveChecker.check fs (rowGet row "rewritten_title")
        (rowGet row "rewritten_content")).passed <;>
      simp [check_content_compliance_with_status, hp]
  · cases hp : (SensitiveChecker.check fs (rowGet row "rewritten_title")
        (rowGet row "rewritten_content")).passed <;>
      simp [check_content_compliance_with_status, hp]
  · cases hp : (SensitiveChecker.check fs (rowGet row "rewritten_title")
        (rowGet row "rewritten_content")).passed <;>
      simp [check_content_compliance_with_status, hp]
  · cases hp : (SensitiveChecker.check fs (rowGet row "rewritten_title")
        (rowGet row "rewritten_content")).passed <;>
      simp [check_content_compliance_with_status, hp]
  · intro k
    exact ⟨rfl, by simp [rowGet, assocFind]⟩

/-- C6 — Match well-formedness invariant: for every word list and every
text, every `(start, end, word)` returned by `search` satisfies
`end > start`, `end ≤ length`, and `word` is exactly the slice
`text[start:end]` (hence of length `end - start`); moreover appending
empty or whitespace-only strings to the word list changes nothing (they
are never inserted into the trie), so in particular no zero-length match
is ever emitted. -/
theorem search_match_wellformed (words : List String) (text : String) (s e : Nat) (w : String)
    (h : (s, e, w) ∈ (DFAMatcher.ofWords words).search text) :
    s < e ∧ e ≤ text.length ∧ w.data = (text.data.drop s).take (e - s) ∧
      w.length = e - s ∧
      DFAMatcher.ofWords (words ++ ["", " "]) = DFAMatcher.ofWords words := by
  obtain ⟨ha, hb, hc, hd⟩ :=
    searchAux_spec (DFAMatcher.ofWords words).root text.data.length text.data 0 s e w
      (Nat.le_refl _) h
  have he : e ≤ text.data.length := by simpa using hc
  have hd' : w.data = (text.data.drop s).take (e - s) := by simpa using hd
  refine ⟨hb, he, hd', ?_, ?_⟩
  · have hlen := congrArg List.length hd'
    rw [List.length_take, List.length_drop] at hlen
    have hwl : w.length = w.data.length := rfl
    rw [hwl, hlen]
    omega
  · unfold DFAMatcher.ofWords
    rw [List.foldl_append]
    rfl

theorem search_match_wellformed_witness :
    ((0, 2, ("aa" : String)) ∈ (DFAMatcher.ofWords ["aa"]).search "aa") ∧
    (0 < 2 ∧ 2 ≤ ("aa" : String).length ∧
      ("aa" : String).data = (("aa" : String).data.drop 0).take (2 - 0) ∧
      ("aa" : String).length = 2 - 0 ∧
      DFAMatcher.ofWords (["aa"] ++ ["", " "]) = DFAMatcher.ofWords ["aa"]) :=
  ⟨by decide, search_match_wellformed ["aa"] "aa" 0 2 "aa" (by decide)⟩

/-- C7 — Message truncation: whenever `check` reports at least one match,
the message lists the display names of the failed categories plus the
words of the first `min(5, total)` matches in overall scan order, with the
ellipsis marker appended exactly when the total number of matches (across
all categories and both fields) exceeds 5. -/
theorem check_message_global_truncation (fs : FS) (title content : String)
    (h : (SensitiveChecker.check fs title content).matched ≠ []) :
    (SensitiveChecker.check fs title content).message =
      "内容含敏感词，涉及：" ++
        String.intercalate ", "
          ((SensitiveChecker.check fs title content).failed_categories.map catName) ++
        "，示例：" ++
        String.intercalate ", "
          (((SensitiveChecker.check fs title content).matched.take 5).map MatchEntry.word ++
            if 5 < (SensitiveChecker.check fs title content).matched.length
            then ["..."] else []) := by
  by_cases hl : (ensureLoadedS fs initState).1 = true
  · by_cases hm : (scanAll (ensureLoadedS fs initState).2.matchers (pyStrip title)
        (stripHtml content)).isEmpty = true
    · exfalso
      apply h
      simp [SensitiveChecker.check, checkS, hl, hm]
    · simp [SensitiveChecker.check, checkS, hl, hm, buildMessage, previewWords]
  · exfalso
    apply h
    simp [SensitiveChecker.check, checkS, hl]

theorem check_message_global_truncation_witness :
    (SensitiveChecker.check ⟨true, fun f => if f = "广告类型.txt" then some ["a"] else none⟩
        "aaaaaa" "").matched ≠ [] ∧
    (SensitiveChecker.check ⟨true, fun f => if f = "广告类型.txt" then some ["a"] else none⟩
        "aaaaaa" "").message =
      "内容含敏感词，涉及：" ++
        String.intercalate ", "
          ((SensitiveChecker.check ⟨true, fun f => if f = "广告类型.txt" then some ["a"] else none⟩
              "aaaaaa" "").failed_categories.map catName) ++
        "，示例：" ++
        String.intercalate ", "
          (((SensitiveChecker.check ⟨true, fun f => if f = "广告类型.txt" then some ["a"] else none⟩
                "aaaaaa" "").matched.take 5).map MatchEntry.word ++
            if 5 < (SensitiveChecker.check ⟨true, fun f =>
                  if f = "广告类型.txt" then some ["a"] else none⟩
                "aaaaaa" "").matched.length
            then ["..."] else []) :=
  ⟨by decide,
    check_message_global_truncation
      ⟨true, fun f => if f = "广告类型.txt" then some ["a"] else none⟩ "aaaaaa" "" (by decide)⟩

/-- C5 — For every (necessarily non-empty) word `W` present verbatim in
the loaded lexicon of some configured category, when the vocabulary
directory exists (Ready state), `check(title = W, content = "")` returns
`passed = false` and its match list contains an entry of that category in
field `"title"` (whose matched word is `W` itself). -/
theorem check_lexicon_word_title_match (fs : FS) (cat : String) (files : List String)
    (W : String)
    (hdir : fs.dirExists = true)
    (hcf : (cat, files) ∈ CATEGORY_FILES)
    (hW : W ∈ catWords fs files) :
    (SensitiveChecker.check fs W "").passed = false ∧
    ∃ m ∈ (SensitiveChecker.check fs W "").matched,
      m.category = cat ∧ m.field = "title" ∧ m.word = W := by
  obtain ⟨hstrip, hneW⟩ := mem_catWords hW
  have hdata : W.data ≠ [] := by
    intro h0
    obtain ⟨d⟩ := W
    simp only at h0
    subst h0
    simp [String.isEmpty] at hneW
  have hws : catWords fs files ≠ [] := List.ne_nil_of_mem hW
  have hwsE : (catWords fs files).isEmpty = false := by
    rw [List.isEmpty_eq_false]
    exact hws
  have hcontains := containsWord_ofWords hW hstrip hneW
  have hmemMS : (cat, DFAMatcher.ofWords (catWords fs files)) ∈ buildMatchers fs [] :=
    mem_buildMatchers hcf hwsE
  have hmsne : buildMatchers fs [] ≠ [] := List.ne_nil_of_mem hmemMS
  have hsearch : (0, W.length, W) ∈ (DFAMatcher.ofWords (catWords fs files)).search W :=
    search_contains_full hcontains hdata
  have hentry : (MatchEntry.mk cat (catName cat) W "title") ∈
      scanAll (buildMatchers fs []) W (stripHtml "") := by
    unfold scanAll
    rw [List.mem_flatMap]
    refine ⟨(cat, DFAMatcher.ofWords (catWords fs files)), hmemMS, ?_⟩
    apply List.mem_append_left
    rw [List.mem_map]
    exact ⟨(0, W.length, W), hsearch, rfl⟩
  have hscanne : (scanAll (buildMatchers fs []) W (stripHtml "")).isEmpty = false := by
    rw [List.isEmpty_eq_false]
    exact List.ne_nil_of_mem hentry
  have hens : ensureLoadedS fs initState = (true, ⟨true, buildMatchers fs []⟩) := by
    unfold ensureLoadedS initState
    simp [hdir, List.isEmpty_eq_false, hmsne]
  have hres : SensitiveChecker.check fs W "" =
      { passed := false,
        message := buildMessage
          (dedupCategories (scanAll (buildMatchers fs []) W (stripHtml "")))
          (scanAll (buildMatchers fs []) W (stripHtml "")),
        failed_categories :=
          dedupCategories (scanAll (buildMatchers fs []) W (stripHtml "")),
        matched := scanAll (buildMatchers fs []) W (stripHtml ""),
        performed := true, sources := "local", skipped_reason := "" } := by
    simp only [SensitiveChecker.check, checkS, hens, hstrip]
    simp [hscanne]
  rw [hres]
  exact ⟨rfl, ⟨MatchEntry.mk cat (catName cat) W "title", hentry, rfl, rfl, rfl⟩⟩

theorem check_lexicon_word_title_match_witness :
    (FS.mk true (fun f => if f = "色情类型.txt" then some ["bad"] else none)).dirExists = true ∧
    (("porn" : String), (["色情类型.txt", "色情词库.txt"] : List String)) ∈ CATEGORY_FILES ∧
    ("bad" : String) ∈ catWords ⟨true, fun f => if f = "色情类型.txt" then some ["bad"] else none⟩
      ["色情类型.txt", "色情词库.txt"] ∧
    ((SensitiveChecker.check ⟨true, fun f => if f = "色情类型.txt" then some ["bad"] else none⟩
        "bad" "").passed = false ∧
      ∃ m ∈ (SensitiveChecker.check
          ⟨true, fun f => if f = "色情类型.txt" then some ["bad"] else none⟩ "bad" "").matched,
        m.category = "porn" ∧ m.field = "title" ∧ m.word = "bad") :=
  ⟨rfl, by decide, by decide,
    check_lexicon_word_title_match
      ⟨true, fun f => if f = "色情类型.txt" then some ["bad"] else none⟩
      "porn" ["色情类型.txt", "色情词库.txt"] "bad" rfl (by decide) (by decide)⟩

end Sensitive
